import Mathlib

/-!
# DelayQueue (`DelayQueue.hpp`): a shallow embedding

The clock (`std::chrono::system_clock::now()`) is an explicit argument: an instant is the
integer count of nanoseconds since the epoch.  `long` values are unbounded integers (signed
overflow is undefined in the source and is not reached by the timestamps and delays at hand).
Each operation that takes the lock is executed at one instant: every `getDelay` read made by a
single `std::sort` call sees the same clock reading.
-/

namespace delay

/-- The enumeration `TimeUnit` of the source. -/
inductive TimeUnit where
  | Hours
  | Minutes
  | Seconds
  | Milliseconds
  | Microseconds
  | Nanoseconds
  deriving DecidableEq, Repr

/-- Number of nanoseconds in one tick of a unit: the period of the `std::chrono` duration type
that `getCurrentTimeStamp` casts to for that unit. -/
def TimeUnit.nanos : TimeUnit → Int
  | .Hours => 3600000000000
  | .Minutes => 60000000000
  | .Seconds => 1000000000
  | .Milliseconds => 1000000
  | .Microseconds => 1000
  | .Nanoseconds => 1

/-- The private struct `DelayedItem` with its four fields. -/
structure DelayedItem (T : Type) where
  _value : T
  _delayTime : Int
  _queuedTime : Int
  _timeUnit : TimeUnit
  deriving DecidableEq, Repr

variable {T : Type}

/-- Member `getCurrentTimeStamp`, read at the instant `now`: `duration_cast` to the unit of the
item, which truncates towards zero. -/
def getCurrentTimeStamp (timeUnit : TimeUnit) (now : Int) : Int :=
  Int.tdiv now timeUnit.nanos

/-- The constructor of `DelayedItem`, run at the instant `now`. -/
def DelayedItem.new (v : T) (delayTime : Int) (timeUnit : TimeUnit) (now : Int) :
    DelayedItem T :=
  { _value := v, _delayTime := delayTime, _queuedTime := getCurrentTimeStamp timeUnit now,
    _timeUnit := timeUnit }

/-- Member `getValue`. -/
def DelayedItem.getValue (it : DelayedItem T) : T := it._value

/-- Member `getTimeUnit`. -/
def DelayedItem.getTimeUnit (it : DelayedItem T) : TimeUnit := it._timeUnit

/-- Member `getDelay`, read at the instant `now`. -/
def DelayedItem.getDelay (it : DelayedItem T) (now : Int) : Int :=
  let elapsed := getCurrentTimeStamp it._timeUnit now - it._queuedTime
  it._delayTime - elapsed

/-- Member `operator<`, both delays read at the instant `now`. -/
def DelayedItem.lt (now : Int) (a b : DelayedItem T) : Bool :=
  decide (a.getDelay now < b.getDelay now)

/-- Insertion of one element into an ordered run, moving it left past every element that it is
strictly less than (the inner loop of an insertion sort driven by `operator<` only). -/
def sortInsert (now : Int) (x : DelayedItem T) : List (DelayedItem T) → List (DelayedItem T)
  | [] => [x]
  | y :: ys => if DelayedItem.lt now y x then y :: sortInsert now x ys else x :: y :: ys

/-- The call `std::sort(_queue.begin(), _queue.end())` executed at the instant `now`.  The library
routine is not part of the repository; it is modelled by an insertion sort that compares with
`operator<` only.  The standard promises an ascending permutation and nothing about the order of
equal elements, so the results below that speak of order use no more than that. -/
def stdSort (now : Int) : List (DelayedItem T) → List (DelayedItem T)
  | [] => []
  | x :: xs => sortInsert now x (stdSort now xs)

/-- Member `offerCommon` at the instant `now`: `push_back`, then `std::sort`. -/
def offerCommon (now : Int) (q : List (DelayedItem T)) (item : DelayedItem T) :
    List (DelayedItem T) :=
  stdSort now (q ++ [item])

/-- Member `offer` at the instant `now`: build the item, then `offerCommon`. -/
def offer (now : Int) (q : List (DelayedItem T)) (value : T) (delayTime : Int := 0)
    (timeUnit : TimeUnit := TimeUnit.Milliseconds) : List (DelayedItem T) :=
  offerCommon now q (DelayedItem.new value delayTime timeUnit now)

/-- The erase loop of `remove`, with the test of the `if` as a parameter: an element that passes
the test is erased, any other is stepped over. -/
def eraseLoop (test : DelayedItem T → Bool) : List (DelayedItem T) → List (DelayedItem T)
  | [] => []
  | it :: rest => if test it then eraseLoop test rest else it :: eraseLoop test rest

/-- Member `remove` for an arbitrary test in the erase loop: the loop, then `std::sort`. -/
def removeIf (test : DelayedItem T → Bool) (now : Int) (q : List (DelayedItem T)) :
    List (DelayedItem T) :=
  stdSort now (eraseLoop test q)

/-- Member `remove` at the instant `now`.  The test is written `*itr.getValue() == value` in the
source; it is read here as the comparison of the payload of the element under the iterator with
`value`, the one reading under which the member has a meaning. -/
def remove [DecidableEq T] (now : Int) (q : List (DelayedItem T)) (value : T) :
    List (DelayedItem T) :=
  removeIf (fun it => decide (it.getValue = value)) now q

/-- One wake-up of a thread suspended inside `takeCommon`: the instant at which it holds the lock
again and the collection as it finds it. -/
structure Wake (T : Type) where
  instant : Int
  queue : List (DelayedItem T)

/-- How a call of `takeCommon` stands after the wake-ups it has been granted.  `timedWaits` lists
the arguments of the `wait_for` calls issued so far. -/
inductive TakeOutcome (T : Type) where
  | returned (item : DelayedItem T) (rest : List (DelayedItem T)) (instant : Int)
      (timedWaits : List (Int × TimeUnit))
  | suspended (timedWaits : List (Int × TimeUnit))
  | frontOfEmpty (timedWaits : List (Int × TimeUnit))

/-- First loop of `takeCommon`: `_cond.wait` with the predicate `!_queue.empty()`.  Yields the
instant and collection with which the call goes on and the wake-ups not yet used, or nothing when
the collection is still empty after the last wake-up. -/
def awaitNonEmpty : Int → List (DelayedItem T) → List (Wake T) →
    Option (Int × List (DelayedItem T) × List (Wake T))
  | now, x :: xs, wakes => some (now, x :: xs, wakes)
  | _, [], [] => none
  | _, [], w :: ws => awaitNonEmpty w.instant w.queue ws

/-- The last three lines of `takeCommon`: `front`, `pop_front`, `return`. -/
def popFront (now : Int) (q : List (DelayedItem T)) (timedWaits : List (Int × TimeUnit)) :
    TakeOutcome T :=
  match q with
  | [] => .frontOfEmpty timedWaits
  | x :: xs => .returned x xs now timedWaits

/-- Second loop of `takeCommon` and the pop that follows it.  `delay` and `timeUnit` are the
locals of the source, `q` is the collection and `now` the instant of the last read; the last
argument lists the wake-ups still to come. -/
def delayLoop : Int → TimeUnit → Int → List (DelayedItem T) → List (Int × TimeUnit) →
    List (Wake T) → TakeOutcome T
  | delay, timeUnit, now, q, timedWaits, [] =>
    if delay > 0 then .suspended (timedWaits ++ [(delay, timeUnit)])
    else popFront now q timedWaits
  | delay, timeUnit, now, q, timedWaits, w :: ws =>
    if delay > 0 then
      match w.queue with
      | [] => .frontOfEmpty (timedWaits ++ [(delay, timeUnit)])
      | x :: _ =>
        delayLoop (x.getDelay w.instant) x.getTimeUnit w.instant w.queue
          (timedWaits ++ [(delay, timeUnit)]) ws
    else popFront now q timedWaits

/-- Member `takeCommon`, entered at the instant `now` on the collection `q`. -/
def takeCommon (now : Int) (q : List (DelayedItem T)) (wakes : List (Wake T)) : TakeOutcome T :=
  match awaitNonEmpty now q wakes with
  | none => .suspended []
  | some (t, q1, ws) =>
    match q1 with
    | [] => .frontOfEmpty []
    | x :: _ => delayLoop (x.getDelay t) x.getTimeUnit t q1 [] ws

/-- Member `take`: the payload of the item that `takeCommon` pops, the collection left behind and
the instant of the return; nothing while the call has not returned.  The source hands back a
reference to the payload of the element just popped; the result here is the payload that element
held when it was popped (how long that reference stays valid is not part of this function). -/
def take (now : Int) (q : List (DelayedItem T)) (wakes : List (Wake T)) :
    Option (T × List (DelayedItem T) × Int) :=
  match takeCommon now q wakes with
  | .returned item rest t _ => some (item.getValue, rest, t)
  | _ => none

/-- Wake-ups of a waiting `take` while no other thread touches the collection. -/
def undisturbed (q : List (DelayedItem T)) (instants : List Int) : List (Wake T) :=
  instants.map fun t => { instant := t, queue := q }

/-- One call made on the queue by a sequential caller.  A `take` carries the instants at which
the call, once suspended, wakes up. -/
inductive Call (T : Type) where
  | offer (value : T) (delayTime : Int) (timeUnit : TimeUnit)
  | remove (value : T)
  | take (wakes : List Int)

/-- The collection together with a record of what the calls made so far have done: the items
built by `offer`, those erased by `remove` and those popped by `take`, each list in order of
occurrence. -/
structure Ledger (T : Type) where
  queue : List (DelayedItem T)
  offered : List (DelayedItem T)
  removed : List (DelayedItem T)
  returned : List (DelayedItem T)

/-- The ledger of a queue just constructed. -/
def Ledger.empty : Ledger T := { queue := [], offered := [], removed := [], returned := [] }

/-- The elements that the erase loop of `remove` erases. -/
def erasedBy (test : DelayedItem T → Bool) : List (DelayedItem T) → List (DelayedItem T)
  | [] => []
  | it :: rest => if test it then it :: erasedBy test rest else erasedBy test rest

/-- One call entered at the instant `now`; nothing when the call is a `take` that does not
return. -/
def exec [DecidableEq T] (now : Int) (s : Ledger T) : Call T → Option (Ledger T)
  | .offer v d u =>
    some { s with queue := offer now s.queue v d u,
                  offered := s.offered ++ [DelayedItem.new v d u now] }
  | .remove v =>
    some { s with queue := remove now s.queue v,
                  removed := s.removed ++ erasedBy (fun it => decide (it.getValue = v)) s.queue }
  | .take wakes =>
    match takeCommon now s.queue (undisturbed s.queue wakes) with
    | .returned item rest _ _ => some { s with queue := rest, returned := s.returned ++ [item] }
    | _ => none

/-- A sequential history run from a given ledger.  A `take` that does not return blocks its
caller for good, so the calls after it are never made. -/
def runFrom [DecidableEq T] (s : Ledger T) : List (Int × Call T) → Ledger T
  | [] => s
  | (now, c) :: rest =>
    match exec now s c with
    | some s1 => runFrom s1 rest
    | none => s

/-- A sequential history run on a queue just constructed. -/
def run [DecidableEq T] (h : List (Int × Call T)) : Ledger T := runFrom Ledger.empty h

/-- The clock readings of a history in the order in which they are made. -/
def instants : List (Int × Call T) → List Int
  | [] => []
  | (now, .take wakes) :: rest => now :: (wakes ++ instants rest)
  | (now, _) :: rest => now :: instants rest

/-- The clock never runs backwards along the history. -/
def Chronological (h : List (Int × Call T)) : Prop := (instants h).Pairwise (· ≤ ·)

instance (h : List (Int × Call T)) : Decidable (Chronological h) := by
  unfold Chronological; infer_instance

/-- Every `offer` of the history names the unit `u`. -/
def sameUnit (u : TimeUnit) : List (Int × Call T) → Bool
  | [] => true
  | (_, .offer _ _ u1) :: rest => decide (u1 = u) && sameUnit u rest
  | _ :: rest => sameUnit u rest

/-- The instant at which an item falls due, counted in ticks of its own unit. -/
def DelayedItem.due (it : DelayedItem T) : Int := it._queuedTime + it._delayTime

/-- Ascending order of the remaining delay read at the instant `now`. -/
def SortedAt (now : Int) (q : List (DelayedItem T)) : Prop :=
  q.Pairwise fun a b => a.getDelay now ≤ b.getDelay now

/-- Ascending order of the due instant. -/
def SortedByDue (q : List (DelayedItem T)) : Prop :=
  q.Pairwise fun a b => a.due ≤ b.due

/-- Every item of the collection is measured in the unit `u`. -/
def AllInUnit (u : TimeUnit) (q : List (DelayedItem T)) : Prop :=
  ∀ x ∈ q, x._timeUnit = u

/-- Sample 1 of `main.cpp`: three offers in milliseconds made at the same instant. -/
def sampleOne : List (Int × Call Nat) :=
  [(0, .offer 1 6000 .Milliseconds), (0, .offer 2 2000 .Milliseconds),
   (0, .offer 3 4000 .Milliseconds)]

/-- Two offers at the same instant, five seconds and one thousand milliseconds. -/
def secondsThenMillis : List (Int × Call Nat) :=
  [(0, .offer 1 5 .Seconds), (0, .offer 2 1000 .Milliseconds)]

/-- What `offer`, `remove` and `take` have done accounts for every item ever built. -/
def Ledger.Balanced (s : Ledger T) : Prop :=
  List.Perm s.offered (s.returned ++ s.removed ++ s.queue)

/-- The clock reading truncated to whole units of `u`, as the specification words it: the number
of whole units that the reading contains, counted from the epoch on either side of it. -/
def wholeUnits (u : TimeUnit) (t : Int) : Int :=
  if 0 ≤ t then t / u.nanos else -((-t) / u.nanos)

/-- The remaining delay as the specification states it: the delay amount minus the difference
between the current time in the unit of the item and the enqueue timestamp. -/
def remainingDelaySpec (it : DelayedItem T) (t : Int) : Int :=
  it._delayTime - (wholeUnits it._timeUnit t - it._queuedTime)

/-- The remaining delay read at `now`, converted to nanoseconds. -/
def DelayedItem.remainingNanos (it : DelayedItem T) (now : Int) : Int :=
  it.getDelay now * it._timeUnit.nanos

/-- Sample 1 of `main.cpp` followed by `remove(3)` after one second, a fourth offer half a second
later and a `take` two seconds after the first offers. -/
def sampleOneRemoveTake : List (Int × Call Nat) :=
  sampleOne ++ [(1000000000, .remove 3), (1500000000, .offer 4 7000 .Milliseconds),
    (2000000000, .take [])]

end delay

namespace delay

variable {T : Type}

/-! ## The remaining delay and the order it induces -/

theorem getDelay_eq_due_sub (it : DelayedItem T) (now : Int) :
    it.getDelay now = it.due - getCurrentTimeStamp it._timeUnit now := by
  simp only [DelayedItem.getDelay, DelayedItem.due]
  omega

theorem getDelay_le_iff_due_le {a b : DelayedItem T} (hu : a._timeUnit = b._timeUnit)
    (now : Int) : a.getDelay now ≤ b.getDelay now ↔ a.due ≤ b.due := by
  rw [getDelay_eq_due_sub, getDelay_eq_due_sub, hu]
  omega

theorem nanos_pos (u : TimeUnit) : 0 < u.nanos := by
  cases u <;> decide

/-! ## `std::sort` yields an ascending permutation -/

theorem sortInsert_perm (now : Int) (x : DelayedItem T) (l : List (DelayedItem T)) :
    List.Perm (sortInsert now x l) (x :: l) := by
  induction l with
  | nil => exact List.Perm.refl _
  | cons y ys ih =>
    by_cases hlt : DelayedItem.lt now y x = true
    · simp only [sortInsert, hlt, if_true]
      exact (ih.cons y).trans (List.Perm.swap x y ys)
    · simp only [sortInsert, hlt]
      exact List.Perm.refl _

theorem stdSort_perm (now : Int) (l : List (DelayedItem T)) : List.Perm (stdSort now l) l := by
  induction l with
  | nil => exact List.Perm.refl _
  | cons x xs ih => exact (sortInsert_perm now x _).trans (ih.cons x)

theorem sortInsert_sortedAt (now : Int) (x : DelayedItem T) (l : List (DelayedItem T))
    (hl : SortedAt now l) : SortedAt now (sortInsert now x l) := by
  induction l with
  | nil => exact List.pairwise_singleton _ _
  | cons y ys ih =>
    have hy := List.pairwise_cons.mp hl
    by_cases hlt : DelayedItem.lt now y x = true
    · simp only [sortInsert, hlt, if_true]
      refine List.pairwise_cons.mpr ⟨?_, ih hy.2⟩
      intro z hz
      rcases List.mem_cons.mp ((sortInsert_perm now x ys).subset hz) with hzx | hzys
      · subst hzx
        exact le_of_lt (of_decide_eq_true hlt)
      · exact hy.1 z hzys
    · simp only [sortInsert, hlt]
      have hxy : x.getDelay now ≤ y.getDelay now := by
        have : ¬ y.getDelay now < x.getDelay now := fun hc => hlt (decide_eq_true hc)
        exact not_lt.mp this
      refine List.pairwise_cons.mpr ⟨?_, hl⟩
      intro z hz
      rcases List.mem_cons.mp hz with hzy | hzys
      · subst hzy
        exact hxy
      · exact le_trans hxy (hy.1 z hzys)

theorem stdSort_sortedAt (now : Int) (l : List (DelayedItem T)) : SortedAt now (stdSort now l) := by
  induction l with
  | nil => exact List.Pairwise.nil
  | cons x xs ih => exact sortInsert_sortedAt now x _ ih

/-! ## The erase loop of `remove` -/

theorem eraseLoop_eq_filter (test : DelayedItem T → Bool) (q : List (DelayedItem T)) :
    eraseLoop test q = q.filter fun it => !test it := by
  induction q with
  | nil => rfl
  | cons x xs ih =>
    by_cases hx : test x = true
    · simp [eraseLoop, hx, ih]
    · simp [eraseLoop, hx, ih]

theorem erasedBy_eq_filter (test : DelayedItem T → Bool) (q : List (DelayedItem T)) :
    erasedBy test q = q.filter test := by
  induction q with
  | nil => rfl
  | cons x xs ih =>
    by_cases hx : test x = true
    · simp [erasedBy, hx, ih]
    · simp [erasedBy, hx, ih]

theorem eraseLoop_sublist (test : DelayedItem T → Bool) (q : List (DelayedItem T)) :
    List.Sublist (eraseLoop test q) q := by
  rw [eraseLoop_eq_filter]
  exact List.filter_sublist q

theorem eraseLoop_erasedBy_perm (test : DelayedItem T → Bool) (q : List (DelayedItem T)) :
    List.Perm (erasedBy test q ++ eraseLoop test q) q := by
  rw [eraseLoop_eq_filter, erasedBy_eq_filter]
  exact List.filter_append_perm test q

/-! ## The loops of `takeCommon` -/

theorem takeCommon_cons (now : Int) (x : DelayedItem T) (xs : List (DelayedItem T))
    (wakes : List (Wake T)) :
    takeCommon now (x :: xs) wakes =
      delayLoop (x.getDelay now) x.getTimeUnit now (x :: xs) [] wakes := by
  cases wakes <;> rfl

theorem delayLoop_of_due (d : Int) (tu : TimeUnit) (now : Int) (q : List (DelayedItem T))
    (tw : List (Int × TimeUnit)) (wakes : List (Wake T)) (hd : d ≤ 0) :
    delayLoop d tu now q tw wakes = popFront now q tw := by
  cases wakes <;> simp [delayLoop, not_lt.mpr hd]

theorem delayLoop_returned_due : ∀ (wakes : List (Wake T)) (d : Int) (tu : TimeUnit) (now : Int)
    (q : List (DelayedItem T)) (tw : List (Int × TimeUnit)) (item : DelayedItem T)
    (rest : List (DelayedItem T)) (t : Int) (tw1 : List (Int × TimeUnit)),
    (∀ x xs, q = x :: xs → d = x.getDelay now) →
    delayLoop d tu now q tw wakes = .returned item rest t tw1 → item.getDelay t ≤ 0 := by
  intro wakes
  induction wakes with
  | nil =>
    intro d tu now q tw item rest t tw1 hq h
    by_cases hd : d > 0
    · simp [delayLoop, hd] at h
    · cases q with
      | nil => simp [delayLoop, hd, popFront] at h
      | cons x xs =>
        simp only [delayLoop, hd, if_false, popFront, TakeOutcome.returned.injEq] at h
        obtain ⟨hx, -, ht, -⟩ := h
        subst hx; subst ht
        rw [← hq x xs rfl]
        exact not_lt.mp hd
  | cons w ws ih =>
    intro d tu now q tw item rest t tw1 hq h
    by_cases hd : d > 0
    · cases hwq : w.queue with
      | nil => simp [delayLoop, hd, hwq] at h
      | cons y ys =>
        simp only [delayLoop, hd, if_true, hwq] at h
        exact ih _ _ _ _ _ item rest t tw1 (fun x xs hx => by
          have := List.cons.inj hx
          rw [this.1]) h
    · cases q with
      | nil => simp [delayLoop, hd, popFront] at h
      | cons x xs =>
        simp only [delayLoop, hd, if_false, popFront, TakeOutcome.returned.injEq] at h
        obtain ⟨hx, -, ht, -⟩ := h
        subst hx; subst ht
        rw [← hq x xs rfl]
        exact not_lt.mp hd

theorem takeCommon_returned_due (now : Int) (q : List (DelayedItem T)) (wakes : List (Wake T))
    (item : DelayedItem T) (rest : List (DelayedItem T)) (t : Int)
    (tw : List (Int × TimeUnit)) (h : takeCommon now q wakes = .returned item rest t tw) :
    item.getDelay t ≤ 0 := by
  unfold takeCommon at h
  cases ha : awaitNonEmpty now q wakes with
  | none => simp [ha] at h
  | some r =>
    obtain ⟨t0, q1, ws⟩ := r
    cases q1 with
    | nil => simp [ha] at h
    | cons x xs =>
      simp only [ha] at h
      exact delayLoop_returned_due ws _ _ _ _ _ item rest t tw
        (fun y ys hy => by rw [(List.cons.inj hy).1]) h

theorem delayLoop_timedWaits_grow : ∀ (wakes : List (Wake T)) (d : Int) (tu : TimeUnit)
    (now : Int) (q : List (DelayedItem T)) (tw : List (Int × TimeUnit)) (item : DelayedItem T)
    (rest : List (DelayedItem T)) (t : Int) (tw1 : List (Int × TimeUnit)),
    delayLoop d tu now q tw wakes = .returned item rest t tw1 → ∃ more, tw1 = tw ++ more := by
  intro wakes
  induction wakes with
  | nil =>
    intro d tu now q tw item rest t tw1 h
    by_cases hd : d > 0
    · simp [delayLoop, hd] at h
    · cases q with
      | nil => simp [delayLoop, hd, popFront] at h
      | cons x xs =>
        simp only [delayLoop, hd, if_false, popFront, TakeOutcome.returned.injEq] at h
        exact ⟨[], by simp [h.2.2.2]⟩
  | cons w ws ih =>
    intro d tu now q tw item rest t tw1 h
    by_cases hd : d > 0
    · cases hwq : w.queue with
      | nil => simp [delayLoop, hd, hwq] at h
      | cons y ys =>
        simp only [delayLoop, hd, if_true, hwq] at h
        obtain ⟨more, hmore⟩ := ih _ _ _ _ _ item rest t tw1 h
        exact ⟨(d, tu) :: more, by simp [hmore]⟩
    · cases q with
      | nil => simp [delayLoop, hd, popFront] at h
      | cons x xs =>
        simp only [delayLoop, hd, if_false, popFront, TakeOutcome.returned.injEq] at h
        exact ⟨[], by simp [h.2.2.2]⟩

theorem delayLoop_undisturbed_returned : ∀ (ws : List Int) (d : Int) (tu : TimeUnit) (now : Int)
    (x : DelayedItem T) (xs : List (DelayedItem T)) (tw : List (Int × TimeUnit))
    (item : DelayedItem T) (rest : List (DelayedItem T)) (t : Int) (tw1 : List (Int × TimeUnit)),
    delayLoop d tu now (x :: xs) tw (undisturbed (x :: xs) ws) = .returned item rest t tw1 →
      item = x ∧ rest = xs ∧ (t = now ∨ t ∈ ws) := by
  intro ws
  induction ws with
  | nil =>
    intro d tu now x xs tw item rest t tw1 h
    by_cases hd : d > 0
    · simp [undisturbed, delayLoop, hd] at h
    · simp only [undisturbed, List.map_nil, delayLoop, hd, if_false, popFront,
        TakeOutcome.returned.injEq] at h
      exact ⟨h.1.symm, h.2.1.symm, Or.inl h.2.2.1.symm⟩
  | cons w ws ih =>
    intro d tu now x xs tw item rest t tw1 h
    by_cases hd : d > 0
    · simp only [undisturbed, List.map_cons, delayLoop, hd, if_true] at h
      obtain ⟨h1, h2, h3⟩ := ih _ _ _ x xs _ item rest t tw1 h
      refine ⟨h1, h2, Or.inr ?_⟩
      rcases h3 with h3 | h3
      · exact h3 ▸ List.mem_cons_self _ _
      · exact List.mem_cons_of_mem _ h3
    · simp only [undisturbed, List.map_cons, delayLoop, hd, if_false, popFront,
        TakeOutcome.returned.injEq] at h
      exact ⟨h.1.symm, h.2.1.symm, Or.inl h.2.2.1.symm⟩

theorem awaitNonEmpty_undisturbed_nil : ∀ (ws : List Int) (now : Int),
    awaitNonEmpty now ([] : List (DelayedItem T)) (undisturbed [] ws) = none := by
  intro ws
  induction ws with
  | nil => intro now; rfl
  | cons w ws ih =>
    intro now
    simpa [undisturbed, awaitNonEmpty] using ih w

theorem takeCommon_undisturbed_returned (now : Int) (q : List (DelayedItem T)) (ws : List Int)
    (item : DelayedItem T) (rest : List (DelayedItem T)) (t : Int) (tw : List (Int × TimeUnit))
    (h : takeCommon now q (undisturbed q ws) = .returned item rest t tw) :
    q = item :: rest ∧ (t = now ∨ t ∈ ws) := by
  cases q with
  | nil => simp [takeCommon, awaitNonEmpty_undisturbed_nil] at h
  | cons x xs =>
    rw [takeCommon_cons] at h
    obtain ⟨h1, h2, h3⟩ := delayLoop_undisturbed_returned ws _ _ _ x xs _ item rest t tw h
    exact ⟨by rw [h1, h2], h3⟩

/-! ## Histories in which every item is measured in one unit -/

theorem sortedByDue_of_sortedAt {u : TimeUnit} {now : Int} {q : List (DelayedItem T)}
    (hu : AllInUnit u q) (hs : SortedAt now q) : SortedByDue q :=
  List.Pairwise.imp_of_mem
    (fun {a b} ha hb hab => (getDelay_le_iff_due_le ((hu a ha).trans (hu b hb).symm) now).mp hab) hs

theorem sortedAt_of_sortedByDue {u : TimeUnit} (now : Int) {q : List (DelayedItem T)}
    (hu : AllInUnit u q) (hs : SortedByDue q) : SortedAt now q :=
  List.Pairwise.imp_of_mem
    (fun {a b} ha hb hab => (getDelay_le_iff_due_le ((hu a ha).trans (hu b hb).symm) now).mpr hab) hs

theorem stdSort_allInUnit {u : TimeUnit} (now : Int) {q : List (DelayedItem T)}
    (hu : AllInUnit u q) : AllInUnit u (stdSort now q) :=
  fun x hx => hu x ((stdSort_perm now q).subset hx)

theorem offer_allInUnit {u : TimeUnit} (now : Int) {q : List (DelayedItem T)} (v : T) (d : Int)
    (hu : AllInUnit u q) : AllInUnit u (offer now q v d u) := by
  apply stdSort_allInUnit
  intro x hx
  rcases List.mem_append.mp hx with hxq | hxn
  · exact hu x hxq
  · rw [List.mem_singleton.mp hxn]
    rfl

theorem removeIf_allInUnit {u : TimeUnit} (test : DelayedItem T → Bool) (now : Int)
    {q : List (DelayedItem T)} (hu : AllInUnit u q) : AllInUnit u (removeIf test now q) := by
  apply stdSort_allInUnit
  intro x hx
  exact hu x ((eraseLoop_sublist test q).subset hx)

theorem exec_sameUnit [DecidableEq T] {u : TimeUnit} (now : Int) (s s1 : Ledger T) (c : Call T)
    (hc : sameUnit u [(now, c)] = true) (hu : AllInUnit u s.queue) (hs : SortedByDue s.queue)
    (he : exec now s c = some s1) : AllInUnit u s1.queue ∧ SortedByDue s1.queue := by
  cases c with
  | offer v d u1 =>
    have hu1 : u1 = u := by simpa [sameUnit] using hc
    subst hu1
    simp only [exec, Option.some.injEq] at he
    subst he
    have hall := offer_allInUnit now v d hu
    exact ⟨hall, sortedByDue_of_sortedAt hall (stdSort_sortedAt now _)⟩
  | remove v =>
    simp only [exec, Option.some.injEq] at he
    subst he
    have hall : AllInUnit u (remove now s.queue v) := removeIf_allInUnit _ now hu
    exact ⟨hall, sortedByDue_of_sortedAt hall (stdSort_sortedAt now _)⟩
  | take wakes =>
    simp only [exec] at he
    cases ht : takeCommon now s.queue (undisturbed s.queue wakes) with
    | returned item rest t tw =>
      simp only [ht, Option.some.injEq] at he
      subst he
      have hq := (takeCommon_undisturbed_returned now s.queue wakes item rest t tw ht).1
      simp only
      refine ⟨fun x hx => hu x (hq ▸ List.mem_cons_of_mem _ hx), ?_⟩
      have hs1 : SortedByDue (item :: rest) := hq ▸ hs
      exact (List.pairwise_cons.mp hs1).2
    | suspended tw => simp [ht] at he
    | frontOfEmpty tw => simp [ht] at he

theorem sameUnit_cons {u : TimeUnit} (e : Int × Call T) (h : List (Int × Call T))
    (hh : sameUnit u (e :: h) = true) : sameUnit u [e] = true ∧ sameUnit u h = true := by
  obtain ⟨now, c⟩ := e
  cases c <;> simp_all [sameUnit]

theorem runFrom_sameUnit [DecidableEq T] {u : TimeUnit} : ∀ (h : List (Int × Call T))
    (s : Ledger T), sameUnit u h = true → AllInUnit u s.queue → SortedByDue s.queue →
    AllInUnit u (runFrom s h).queue ∧ SortedByDue (runFrom s h).queue := by
  intro h
  induction h with
  | nil => intro s _ hu hs; exact ⟨hu, hs⟩
  | cons e h ih =>
    intro s hh hu hs
    obtain ⟨now, c⟩ := e
    obtain ⟨hc, hrest⟩ := sameUnit_cons (now, c) h hh
    simp only [runFrom]
    cases he : exec now s c with
    | none => exact ⟨hu, hs⟩
    | some s1 =>
      obtain ⟨hu1, hs1⟩ := exec_sameUnit now s s1 c hc hu hs he
      exact ih s1 hrest hu1 hs1

theorem run_sameUnit [DecidableEq T] {u : TimeUnit} (h : List (Int × Call T))
    (hh : sameUnit u h = true) : AllInUnit u (run h).queue ∧ SortedByDue (run h).queue :=
  runFrom_sameUnit h Ledger.empty hh (fun _ hx => absurd hx (List.not_mem_nil _))
    List.Pairwise.nil

/-! ## C1: the item that `take` returns and the items left behind -/

/-- C1, as stated, fails: after `offer(1, 5, Seconds)` and `offer(2, 1000, Milliseconds)` at the
instant 0 the collection holds item 1 before item 2; a `take` entered five seconds later returns
item 1, whose remaining delay is 0, while item 2 stays behind with remaining delay -4000. -/
theorem take_returns_item_with_larger_delay :
    Chronological (secondsThenMillis ++ [(5000000000, Call.take [])]) ∧
    (run secondsThenMillis).queue =
      [{ _value := 1, _delayTime := 5, _queuedTime := 0, _timeUnit := .Seconds },
       { _value := 2, _delayTime := 1000, _queuedTime := 0, _timeUnit := .Milliseconds }] ∧
    takeCommon 5000000000 (run secondsThenMillis).queue
        (undisturbed (run secondsThenMillis).queue []) =
      .returned { _value := 1, _delayTime := 5, _queuedTime := 0, _timeUnit := .Seconds }
        [{ _value := 2, _delayTime := 1000, _queuedTime := 0, _timeUnit := .Milliseconds }]
        5000000000 [] ∧
    DelayedItem.getDelay
        ({ _value := 1, _delayTime := 5, _queuedTime := 0, _timeUnit := .Seconds } :
          DelayedItem Nat) 5000000000 = 0 ∧
    DelayedItem.getDelay
        ({ _value := 2, _delayTime := 1000, _queuedTime := 0, _timeUnit := .Milliseconds } :
          DelayedItem Nat) 5000000000 = -4000 := by
  refine ⟨by decide, by decide, rfl, by decide, by decide⟩

/-- C1, amended: in every state reached from the empty queue by a history whose offers all name
one time unit, a `take` that returns pops the first item of the collection, that item is due at
the instant of the return, and its remaining delay at that instant is less than or equal to the
remaining delay of every item left in the collection. -/
theorem take_returns_least_remaining_delay [DecidableEq T] (u : TimeUnit)
    (h : List (Int × Call T)) (hh : sameUnit u h = true) (now : Int) (wakes : List Int)
    (item : DelayedItem T) (rest : List (DelayedItem T)) (t : Int) (tw : List (Int × TimeUnit))
    (ht : takeCommon now (run h).queue (undisturbed (run h).queue wakes) =
      .returned item rest t tw) :
    (run h).queue = item :: rest ∧ item.getDelay t ≤ 0 ∧
      ∀ y ∈ rest, item.getDelay t ≤ y.getDelay t := by
  obtain ⟨hu, hs⟩ := run_sameUnit h hh
  have hq := (takeCommon_undisturbed_returned now _ wakes item rest t tw ht).1
  refine ⟨hq, takeCommon_returned_due _ _ _ _ _ _ _ ht, ?_⟩
  rw [hq] at hu hs
  exact fun y hy => List.rel_of_pairwise_cons (sortedAt_of_sortedByDue t hu hs) hy

/-- C1, amended, on sample 1 of `main.cpp`: the `take` entered at the instant 0 and woken after two
seconds returns item 2, the one with the least remaining delay. -/
theorem take_returns_least_remaining_delay_witness :
    sameUnit TimeUnit.Milliseconds sampleOne = true ∧
    takeCommon 0 (run sampleOne).queue (undisturbed (run sampleOne).queue [2000000000]) =
      .returned { _value := 2, _delayTime := 2000, _queuedTime := 0, _timeUnit := .Milliseconds }
        [{ _value := 3, _delayTime := 4000, _queuedTime := 0, _timeUnit := .Milliseconds },
         { _value := 1, _delayTime := 6000, _queuedTime := 0, _timeUnit := .Milliseconds }]
        2000000000 [(2000, TimeUnit.Milliseconds)] ∧
    ((run sampleOne).queue =
        { _value := 2, _delayTime := 2000, _queuedTime := 0, _timeUnit := .Milliseconds } ::
        [{ _value := 3, _delayTime := 4000, _queuedTime := 0, _timeUnit := .Milliseconds },
         { _value := 1, _delayTime := 6000, _queuedTime := 0, _timeUnit := .Milliseconds }] ∧
      DelayedItem.getDelay
        ({ _value := 2, _delayTime := 2000, _queuedTime := 0, _timeUnit := .Milliseconds } :
          DelayedItem Nat) 2000000000 ≤ 0 ∧
      ∀ y ∈ [({ _value := 3, _delayTime := 4000, _queuedTime := 0,
                _timeUnit := .Milliseconds } : DelayedItem Nat),
             { _value := 1, _delayTime := 6000, _queuedTime := 0, _timeUnit := .Milliseconds }],
        DelayedItem.getDelay
          ({ _value := 2, _delayTime := 2000, _queuedTime := 0, _timeUnit := .Milliseconds } :
            DelayedItem Nat) 2000000000 ≤ y.getDelay 2000000000) :=
  ⟨by decide, rfl,
    take_returns_least_remaining_delay TimeUnit.Milliseconds sampleOne (by decide) 0
      [2000000000] _ _ 2000000000 [(2000, TimeUnit.Milliseconds)] rfl⟩

/-! ## C2: `takeCommon` on a non-empty collection -/

/-- C2, what the code does: on a non-empty collection, when the remaining delay of the first
item is at most 0 at the instant `now`, `takeCommon` pops that first item at `now` without issuing
any wait and the collection left is the tail of the previous one; when that remaining delay is
positive, the call does not return at `now`: with no wake-up it stands suspended in a timed wait,
whatever the wake-ups a return comes only after at least one timed wait, and while nobody else
touches the collection the instant of the return differs from `now`.  What `take` hands back is
a reference bound to the first element before `pop_front` destroyed it, not the payload; that
result is not part of this statement. -/
theorem take_front_when_due_else_waits (x : DelayedItem T) (xs : List (DelayedItem T))
    (now : Int) (wakes : List (Wake T)) (ws : List Int) :
    (x.getDelay now ≤ 0 → takeCommon now (x :: xs) wakes = .returned x xs now []) ∧
    (0 < x.getDelay now →
      takeCommon now (x :: xs) [] = .suspended [(x.getDelay now, x.getTimeUnit)] ∧
      (∀ item rest t tw, takeCommon now (x :: xs) wakes = .returned item rest t tw → tw ≠ []) ∧
      (∀ item rest t tw,
        takeCommon now (x :: xs) (undisturbed (x :: xs) ws) = .returned item rest t tw →
          t ≠ now)) := by
  refine ⟨fun hd => ?_, fun hd => ⟨?_, ?_, ?_⟩⟩
  · rw [takeCommon_cons, delayLoop_of_due _ _ _ _ _ _ hd]
    rfl
  · rw [takeCommon_cons]
    simp [delayLoop, hd]
  · intro item rest t tw h
    rw [takeCommon_cons] at h
    cases wakes with
    | nil => simp [delayLoop, hd] at h
    | cons w wakes =>
      cases hwq : w.queue with
      | nil => simp [delayLoop, hd, hwq] at h
      | cons y ys =>
        simp only [delayLoop, gt_iff_lt, hd, if_true, hwq] at h
        obtain ⟨more, hmore⟩ := delayLoop_timedWaits_grow _ _ _ _ _ _ _ _ _ _ h
        rw [hmore]
        simp
  · intro item rest t tw h
    have hdue := takeCommon_returned_due _ _ _ _ _ _ _ h
    have hq := (takeCommon_undisturbed_returned now _ ws item rest t tw h).1
    have hx : item = x := (List.cons.inj hq).1.symm
    intro ht
    rw [hx, ht] at hdue
    omega

/-- C2, the code at two concrete inputs: the first item, offered with delay 0, is popped at once
with no wait and the second item is left behind, so the element that the reference handed back by
`take` was bound to is no longer in the collection; an item offered with delay 2000 ms is not
returned at the instant of the offer. -/
theorem take_front_when_due_else_waits_witness :
    (DelayedItem.getDelay (DelayedItem.new 7 0 TimeUnit.Milliseconds 0 : DelayedItem Nat) 0 ≤ 0 ∧
      takeCommon 0 [DelayedItem.new 7 0 TimeUnit.Milliseconds 0, DelayedItem.new 8 5 .Seconds 0]
          [] =
        .returned (DelayedItem.new 7 0 TimeUnit.Milliseconds 0)
          [DelayedItem.new 8 5 .Seconds 0] 0 []) ∧
    (DelayedItem.new 7 0 TimeUnit.Milliseconds 0 : DelayedItem Nat) ∉
      [(DelayedItem.new 8 5 TimeUnit.Seconds 0 : DelayedItem Nat)] ∧
    (0 < DelayedItem.getDelay
        (DelayedItem.new 7 2000 TimeUnit.Milliseconds 0 : DelayedItem Nat) 0 ∧
      takeCommon 0 [(DelayedItem.new 7 2000 TimeUnit.Milliseconds 0 : DelayedItem Nat)] [] =
        .suspended [(2000, TimeUnit.Milliseconds)]) :=
  ⟨⟨by decide,
      (take_front_when_due_else_waits (DelayedItem.new 7 0 TimeUnit.Milliseconds 0)
        [DelayedItem.new 8 5 .Seconds 0] 0 [] []).1 (by decide)⟩,
    by decide,
    ⟨by decide,
      ((take_front_when_due_else_waits (DelayedItem.new 7 2000 TimeUnit.Milliseconds 0)
        [] 0 [] []).2 (by decide)).1⟩⟩

/-! ## Conservation of items along a history -/

theorem offer_perm (now : Int) (q : List (DelayedItem T)) (v : T) (d : Int) (u : TimeUnit) :
    List.Perm (offer now q v d u) (DelayedItem.new v d u now :: q) :=
  (stdSort_perm now _).trans (List.perm_append_singleton _ _)

theorem removeIf_perm (test : DelayedItem T → Bool) (now : Int) (q : List (DelayedItem T)) :
    List.Perm (erasedBy test q ++ removeIf test now q) q :=
  ((stdSort_perm now _).append_left _).trans (eraseLoop_erasedBy_perm test q)

theorem exec_balanced [DecidableEq T] (now : Int) (s s1 : Ledger T) (c : Call T)
    (hb : s.Balanced) (he : exec now s c = some s1) : s1.Balanced := by
  unfold Ledger.Balanced at hb ⊢
  cases c with
  | offer v d u =>
    simp only [exec, Option.some.injEq] at he
    subst he
    simp only
    have h1 := offer_perm now s.queue v d u
    have h2 : List.Perm (s.offered ++ [DelayedItem.new v d u now])
        ((s.returned ++ s.removed ++ s.queue) ++ [DelayedItem.new v d u now]) :=
      hb.append_right _
    rw [List.append_assoc (s.returned ++ s.removed)] at h2
    exact h2.trans (List.Perm.append_left _ ((List.perm_append_singleton _ _).trans h1.symm))
  | remove v =>
    simp only [exec, Option.some.injEq] at he
    subst he
    simp only
    have h1 := removeIf_perm (fun it => decide (it.getValue = v)) now s.queue
    have h2 : List.Perm s.offered (s.returned ++ s.removed ++
        (erasedBy (fun it => decide (it.getValue = v)) s.queue ++ remove now s.queue v)) :=
      hb.trans (List.Perm.append_left _ h1.symm)
    simpa only [List.append_assoc] using h2
  | take wakes =>
    simp only [exec] at he
    cases ht : takeCommon now s.queue (undisturbed s.queue wakes) with
    | returned item rest t tw =>
      simp only [ht, Option.some.injEq] at he
      subst he
      have hq := (takeCommon_undisturbed_returned now s.queue wakes item rest t tw ht).1
      simp only
      rw [hq] at hb
      refine hb.trans ?_
      simp only [List.append_assoc]
      refine List.Perm.append_left _ ?_
      simp only [List.singleton_append]
      exact List.perm_middle
    | suspended tw => simp [ht] at he
    | frontOfEmpty tw => simp [ht] at he

theorem runFrom_balanced [DecidableEq T] : ∀ (h : List (Int × Call T)) (s : Ledger T),
    s.Balanced → (runFrom s h).Balanced := by
  intro h
  induction h with
  | nil => intro s hb; exact hb
  | cons e h ih =>
    intro s hb
    obtain ⟨now, c⟩ := e
    simp only [runFrom]
    cases he : exec now s c with
    | none => exact hb
    | some s1 => exact ih s1 (exec_balanced now s s1 c hb he)

theorem run_balanced [DecidableEq T] (h : List (Int × Call T)) : (run h).Balanced :=
  runFrom_balanced h Ledger.empty (List.Perm.refl _)

/-! ## C3: offers followed by takes -/

theorem timestamp_mul_le (u : TimeUnit) (t : Int) (h : 0 < getCurrentTimeStamp u t) :
    getCurrentTimeStamp u t * u.nanos ≤ t := by
  unfold getCurrentTimeStamp at h ⊢
  have hU := nanos_pos u
  by_cases ht : 0 ≤ t
  · rw [Int.tdiv_eq_ediv ht (le_of_lt hU)]
    exact Int.ediv_mul_le t (ne_of_gt hU)
  · exfalso
    have hneg : 0 ≤ -t := by omega
    have h1 : 0 ≤ (-t).tdiv u.nanos := Int.tdiv_nonneg hneg (le_of_lt hU)
    rw [Int.neg_tdiv] at h1
    omega

theorem lt_timestamp_succ_mul (u : TimeUnit) (t : Int) :
    t < (getCurrentTimeStamp u t + 1) * u.nanos :=
  Int.lt_tdiv_add_one_mul_self t (nanos_pos u)

/-- C4, as stated, fails: an item offered with a delay of one hour one millisecond before the
clock reaches a whole hour is returned by a `take` entered at that whole hour, one millisecond
after the offer; one second of tolerance added, the elapsed time is still less than the hour. -/
theorem take_returns_long_before_delay_elapsed :
    take 3600000000000 (offer 3599999000000 ([] : List (DelayedItem Nat)) 7 1 TimeUnit.Hours) [] =
      some (7, [], 3600000000000) ∧
    (3600000000000 : Int) - 3599999000000 = 1 * TimeUnit.Milliseconds.nanos ∧
    ¬ ((3600000000000 : Int) - 3599999000000 ≥
        1 * TimeUnit.Hours.nanos - 1 * TimeUnit.Seconds.nanos) := by
  refine ⟨by decide, by decide, by decide⟩

/-- C4, amended: an item built at the instant `t0 ≥ 0` with delay `d > 0` in unit `u` is returned
by `take` only at an instant `t` at which the clock, truncated to whole units of `u`, has
advanced by at least `d` since the item was built; hence more than `d - 1` units of `u` have
elapsed (all but one unit of the delay at the least), with no tolerance needed. -/
theorem take_waits_for_truncated_delay (now : Int) (q : List (DelayedItem T))
    (wakes : List (Wake T)) (item : DelayedItem T) (rest : List (DelayedItem T)) (t : Int)
    (tw : List (Int × TimeUnit)) (v : T) (d : Int) (u : TimeUnit) (t0 : Int)
    (h : takeCommon now q wakes = .returned item rest t tw)
    (hitem : item = DelayedItem.new v d u t0) (hd : 0 < d) (ht0 : 0 ≤ t0) :
    d ≤ getCurrentTimeStamp u t - getCurrentTimeStamp u t0 ∧ (d - 1) * u.nanos < t - t0 := by
  have hdue := takeCommon_returned_due now q wakes item rest t tw h
  subst hitem
  simp only [DelayedItem.getDelay, DelayedItem.new] at hdue
  have hU := nanos_pos u
  have hb : 0 ≤ getCurrentTimeStamp u t0 := Int.tdiv_nonneg ht0 (le_of_lt hU)
  have h1 : d ≤ getCurrentTimeStamp u t - getCurrentTimeStamp u t0 := by omega
  refine ⟨h1, ?_⟩
  have ha := timestamp_mul_le u t (by omega)
  have hlt := lt_timestamp_succ_mul u t0
  have hmul : (d + getCurrentTimeStamp u t0) * u.nanos ≤ getCurrentTimeStamp u t * u.nanos :=
    Int.mul_le_mul_of_nonneg_right (by omega) (le_of_lt hU)
  have e1 : (d + getCurrentTimeStamp u t0) * u.nanos =
      (d - 1) * u.nanos + (getCurrentTimeStamp u t0 + 1) * u.nanos := by ring
  omega

/-- C4, amended, at a concrete input: an item offered at the instant 0 with a delay of 2000 ms
and returned by a `take` woken two seconds later. -/
theorem take_waits_for_truncated_delay_witness :
    takeCommon 0 [DelayedItem.new 7 2000 TimeUnit.Milliseconds 0]
        (undisturbed [DelayedItem.new 7 2000 TimeUnit.Milliseconds 0] [2000000000]) =
      .returned (DelayedItem.new 7 2000 TimeUnit.Milliseconds 0) [] 2000000000
        [(2000, TimeUnit.Milliseconds)] ∧
    (0 : Int) < 2000 ∧ (0 : Int) ≤ 0 ∧
    ((2000 : Int) ≤ getCurrentTimeStamp TimeUnit.Milliseconds 2000000000 -
        getCurrentTimeStamp TimeUnit.Milliseconds 0 ∧
      ((2000 : Int) - 1) * TimeUnit.Milliseconds.nanos < 2000000000 - 0) :=
  ⟨rfl, by decide, by decide,
    take_waits_for_truncated_delay 0 [DelayedItem.new 7 2000 TimeUnit.Milliseconds 0]
      (undisturbed [DelayedItem.new 7 2000 TimeUnit.Milliseconds 0] [2000000000])
      (DelayedItem.new 7 2000 TimeUnit.Milliseconds 0) [] 2000000000
      [(2000, TimeUnit.Milliseconds)] (7 : Nat) 2000 TimeUnit.Milliseconds 0 rfl rfl
      (by decide) (by decide)⟩

/-! ## C5 and C6: what `offer` and `remove` leave in the collection -/

/-- C5: `offer(v, d, u)` at the instant `now` is defined on every collection and yields a
permutation of the previous items and one new item, whose payload is `v`, whose delay amount is
`d`, whose unit is `u` and whose enqueue timestamp is the clock reading at `now` truncated to
whole units of `u`; the items present before are carried over with all their fields. -/
theorem offer_adds_exactly_one_item (now : Int) (q : List (DelayedItem T)) (v : T) (d : Int)
    (u : TimeUnit) :
    List.Perm (offer now q v d u) (q ++ [DelayedItem.new v d u now]) ∧
    (offer now q v d u).length = q.length + 1 ∧
    (DelayedItem.new v d u now).getValue = v ∧
    (DelayedItem.new v d u now)._delayTime = d ∧
    (DelayedItem.new v d u now).getTimeUnit = u ∧
    (DelayedItem.new v d u now)._queuedTime = getCurrentTimeStamp u now ∧
    getCurrentTimeStamp u now = Int.tdiv now u.nanos := by
  have hp : List.Perm (offer now q v d u) (q ++ [DelayedItem.new v d u now]) :=
    stdSort_perm now _
  refine ⟨hp, ?_, rfl, rfl, rfl, rfl, rfl⟩
  rw [hp.length_eq]
  simp

/-- C6: whatever the collection was, the collection left by `offer` or by `remove` executed at
the instant `now` is in ascending order of the remaining delay read at `now` (for `remove` this
holds whichever items its loop erases), and its first item has the least remaining delay of all
the items it holds. -/
theorem offer_remove_leave_sorted [DecidableEq T] (now : Int) (q : List (DelayedItem T)) (v : T)
    (d : Int) (u : TimeUnit) (test : DelayedItem T → Bool) :
    SortedAt now (offer now q v d u) ∧ SortedAt now (remove now q v) ∧
    SortedAt now (removeIf test now q) ∧
    (∀ x rest, offer now q v d u = x :: rest →
      ∀ y ∈ x :: rest, x.getDelay now ≤ y.getDelay now) ∧
    (∀ x rest, remove now q v = x :: rest →
      ∀ y ∈ x :: rest, x.getDelay now ≤ y.getDelay now) := by
  have hfirst : ∀ (l : List (DelayedItem T)), SortedAt now l → ∀ x rest, l = x :: rest →
      ∀ y ∈ x :: rest, x.getDelay now ≤ y.getDelay now := by
    intro l hl x rest hx y hy
    rw [hx] at hl
    rcases List.mem_cons.mp hy with hyx | hyr
    · rw [hyx]
    · exact List.rel_of_pairwise_cons hl hyr
  exact ⟨stdSort_sortedAt now _, stdSort_sortedAt now _, stdSort_sortedAt now _,
    hfirst _ (stdSort_sortedAt now _), hfirst _ (stdSort_sortedAt now _)⟩

/-- C6 at a concrete input: an unordered collection of three items, an `offer` and a `remove`
executed one second after the items were built. -/
theorem offer_remove_leave_sorted_witness :
    offer 1000000000
        [DelayedItem.new 1 6000 TimeUnit.Milliseconds 0, DelayedItem.new 2 2 .Seconds 0,
         DelayedItem.new 3 4000 .Milliseconds 0] 4 1500 .Milliseconds =
      DelayedItem.new 2 2 .Seconds 0 ::
        [DelayedItem.new 4 1500 .Milliseconds 1000000000, DelayedItem.new 3 4000 .Milliseconds 0,
         DelayedItem.new 1 6000 TimeUnit.Milliseconds 0] ∧
    (∀ y ∈ DelayedItem.new 2 2 .Seconds 0 ::
        [DelayedItem.new 4 1500 .Milliseconds 1000000000, DelayedItem.new 3 4000 .Milliseconds 0,
         DelayedItem.new 1 6000 TimeUnit.Milliseconds 0],
      (DelayedItem.new 2 2 .Seconds 0 : DelayedItem Nat).getDelay 1000000000 ≤
        y.getDelay 1000000000) ∧
    remove 1000000000
        [DelayedItem.new 1 6000 TimeUnit.Milliseconds 0, DelayedItem.new 2 2 .Seconds 0,
         DelayedItem.new 3 4000 .Milliseconds 0] 2 =
      DelayedItem.new 3 4000 .Milliseconds 0 :: [DelayedItem.new 1 6000 .Milliseconds 0] ∧
    (∀ y ∈ DelayedItem.new 3 4000 .Milliseconds 0 :: [DelayedItem.new 1 6000 .Milliseconds 0],
      (DelayedItem.new 3 4000 .Milliseconds 0 : DelayedItem Nat).getDelay 1000000000 ≤
        y.getDelay 1000000000) :=
  ⟨by decide,
    (offer_remove_leave_sorted 1000000000
      [DelayedItem.new 1 6000 TimeUnit.Milliseconds 0, DelayedItem.new 2 2 .Seconds 0,
       DelayedItem.new 3 4000 .Milliseconds 0] 4 1500 .Milliseconds (fun _ => false)).2.2.2.1
      _ _ (by decide),
    by decide,
    (offer_remove_leave_sorted 1000000000
      [DelayedItem.new 1 6000 TimeUnit.Milliseconds 0, DelayedItem.new 2 2 .Seconds 0,
       DelayedItem.new 3 4000 .Milliseconds 0] 2 0 .Milliseconds (fun _ => false)).2.2.2.2
      _ _ (by decide)⟩

/-! ## C10: every item is accounted for exactly once -/

/-- C10: along every sequential history run on an empty queue, the items built by `offer` are,
counted with multiplicity, exactly the items returned by `take`, the items erased by `remove`
and the items still held, so no item is returned by more than one `take`; the number of items
returned equals the number offered minus the number erased minus the number still held. -/
theorem take_returns_each_item_once [DecidableEq T] (h : List (Int × Call T)) :
    List.Perm (run h).offered ((run h).returned ++ (run h).removed ++ (run h).queue) ∧
    (∀ x : DelayedItem T,
      List.count x (run h).returned + List.count x (run h).removed +
        List.count x (run h).queue = List.count x (run h).offered) ∧
    (run h).returned.length =
      (run h).offered.length - (run h).removed.length - (run h).queue.length := by
  have hb : List.Perm (run h).offered ((run h).returned ++ (run h).removed ++ (run h).queue) :=
    run_balanced h
  refine ⟨hb, fun x => ?_, ?_⟩
  · rw [hb.count_eq x]
    simp only [List.count_append]
  · have hl := hb.length_eq
    simp only [List.length_append] at hl
    omega

/-! ## C11: delays that are zero or negative -/

theorem timestamp_mono (u : TimeUnit) {t0 t : Int} (h : t0 ≤ t) :
    getCurrentTimeStamp u t0 ≤ getCurrentTimeStamp u t := by
  unfold getCurrentTimeStamp
  have hU := nanos_pos u
  by_cases h0 : 0 ≤ t0
  · rw [Int.tdiv_eq_ediv h0 (le_of_lt hU), Int.tdiv_eq_ediv (le_trans h0 h) (le_of_lt hU)]
    exact Int.ediv_le_ediv hU h
  · have e0 : t0.tdiv u.nanos = -((-t0).tdiv u.nanos) := by
      rw [Int.neg_tdiv, neg_neg]
    have hn0 : 0 ≤ (-t0).tdiv u.nanos := Int.tdiv_nonneg (by omega) (le_of_lt hU)
    by_cases h1 : 0 ≤ t
    · have := Int.tdiv_nonneg h1 (le_of_lt hU)
      omega
    · have e1 : t.tdiv u.nanos = -((-t).tdiv u.nanos) := by
        rw [Int.neg_tdiv, neg_neg]
      rw [e0, e1, Int.tdiv_eq_ediv (by omega) (le_of_lt hU),
        Int.tdiv_eq_ediv (by omega) (le_of_lt hU)]
      have := Int.ediv_le_ediv hU (show -t ≤ -t0 by omega)
      omega

/-- C11: an item offered at the instant `t0` with a delay amount `d ≤ 0`, in any unit, has a
remaining delay of at most 0 at every instant `t ≥ t0`; a `take` entered at such an instant on a
queue that holds only that item returns it at that instant with no timed wait issued.  The
default `offer(value)` is delay 0 in milliseconds. -/
theorem nonpositive_delay_is_due_at_once (v : T) (d : Int) (u : TimeUnit) (t0 t : Int)
    (wakes : List (Wake T)) (hd : d ≤ 0) (ht : t0 ≤ t) :
    (DelayedItem.new v d u t0).getDelay t ≤ 0 ∧
    offer t0 [] v d u = [DelayedItem.new v d u t0] ∧
    takeCommon t (offer t0 [] v d u) wakes = .returned (DelayedItem.new v d u t0) [] t [] ∧
    take t (offer t0 [] v d u) wakes = some (v, [], t) ∧
    offer t0 [] v = [DelayedItem.new v 0 TimeUnit.Milliseconds t0] := by
  have hdue : (DelayedItem.new v d u t0).getDelay t ≤ 0 := by
    have := timestamp_mono u ht
    simp only [DelayedItem.getDelay, DelayedItem.new]
    omega
  have hq : offer t0 [] v d u = [DelayedItem.new v d u t0] := rfl
  have htake : takeCommon t (offer t0 [] v d u) wakes =
      .returned (DelayedItem.new v d u t0) [] t [] := by
    rw [hq, takeCommon_cons, delayLoop_of_due _ _ _ _ _ _ hdue]
    rfl
  exact ⟨hdue, hq, htake, by simp [take, htake, DelayedItem.getValue, DelayedItem.new], rfl⟩

/-- C11 at a concrete input: an item offered with delay -3 in seconds, taken two seconds and a
half later. -/
theorem nonpositive_delay_is_due_at_once_witness :
    (-3 : Int) ≤ 0 ∧ (1000000000 : Int) ≤ 3500000000 ∧
    ((DelayedItem.new 7 (-3) TimeUnit.Seconds 1000000000 : DelayedItem Nat).getDelay
        3500000000 ≤ 0 ∧
      offer 1000000000 [] 7 (-3) TimeUnit.Seconds =
        [DelayedItem.new 7 (-3) TimeUnit.Seconds 1000000000] ∧
      takeCommon 3500000000 (offer 1000000000 [] 7 (-3) TimeUnit.Seconds) [] =
        .returned (DelayedItem.new 7 (-3) TimeUnit.Seconds 1000000000) [] 3500000000 [] ∧
      take 3500000000 (offer 1000000000 [] 7 (-3) TimeUnit.Seconds) [] =
        some (7, [], 3500000000) ∧
      offer 1000000000 [] 7 = [DelayedItem.new 7 0 TimeUnit.Milliseconds 1000000000]) :=
  ⟨by decide, by decide,
    nonpositive_delay_is_due_at_once (7 : Nat) (-3) TimeUnit.Seconds 1000000000 3500000000 []
      (by decide) (by decide)⟩

/-! ## C12: the formula of the remaining delay -/

theorem getCurrentTimeStamp_eq_wholeUnits (u : TimeUnit) (t : Int) :
    getCurrentTimeStamp u t = wholeUnits u t := by
  unfold getCurrentTimeStamp wholeUnits
  have hU := nanos_pos u
  by_cases h : 0 ≤ t
  · rw [if_pos h, Int.tdiv_eq_ediv h (le_of_lt hU)]
  · rw [if_neg h, ← Int.tdiv_eq_ediv (by omega) (le_of_lt hU), Int.neg_tdiv, neg_neg]

/-- C12: the remaining delay read at the instant `t` is the delay amount minus the difference
between the clock reading at `t`, truncated to whole units of the unit of the item, and the
enqueue timestamp.  It is a function of the stored fields and the clock only, so a later read
differs from an earlier one by the whole units gone by in between, and it may be negative. -/
theorem remaining_delay_formula (it : DelayedItem T) (t t1 : Int) :
    it.getDelay t = remainingDelaySpec it t ∧
    it.getDelay t = it._delayTime - (Int.tdiv t it._timeUnit.nanos - it._queuedTime) ∧
    (0 ≤ t → getCurrentTimeStamp it._timeUnit t * it._timeUnit.nanos ≤ t ∧
      t < (getCurrentTimeStamp it._timeUnit t + 1) * it._timeUnit.nanos) ∧
    it.getDelay t1 = it.getDelay t -
      (getCurrentTimeStamp it._timeUnit t1 - getCurrentTimeStamp it._timeUnit t) ∧
    (DelayedItem.new 7 2 TimeUnit.Seconds 0 : DelayedItem Nat).getDelay 5000000000 = -3 := by
  refine ⟨?_, rfl, fun h0 => ⟨?_, lt_timestamp_succ_mul _ t⟩, ?_, by decide⟩
  · unfold remainingDelaySpec
    rw [← getCurrentTimeStamp_eq_wholeUnits]
    rfl
  · unfold getCurrentTimeStamp
    have hU := nanos_pos it._timeUnit
    rw [Int.tdiv_eq_ediv h0 (le_of_lt hU)]
    exact Int.ediv_mul_le t (ne_of_gt hU)
  · simp only [DelayedItem.getDelay]
    omega

/-- C12 at a concrete input: an item of 2 seconds built at the instant 0, read after 1.5 s and
after 5 s. -/
theorem remaining_delay_formula_witness :
    (0 : Int) ≤ 1500000000 ∧
    ((DelayedItem.new 7 2 TimeUnit.Seconds 0 : DelayedItem Nat).getDelay 1500000000 =
        remainingDelaySpec (DelayedItem.new 7 2 TimeUnit.Seconds 0 : DelayedItem Nat)
          1500000000 ∧
      getCurrentTimeStamp TimeUnit.Seconds 1500000000 * TimeUnit.Seconds.nanos ≤ 1500000000 ∧
      (1500000000 : Int) <
        (getCurrentTimeStamp TimeUnit.Seconds 1500000000 + 1) * TimeUnit.Seconds.nanos) ∧
    (DelayedItem.new 7 2 TimeUnit.Seconds 0 : DelayedItem Nat).getDelay 1500000000 = 1 :=
  ⟨by decide,
    ⟨(remaining_delay_formula (DelayedItem.new 7 2 TimeUnit.Seconds 0 : DelayedItem Nat)
        1500000000 5000000000).1,
      ((remaining_delay_formula (DelayedItem.new 7 2 TimeUnit.Seconds 0 : DelayedItem Nat)
        1500000000 5000000000).2.2.1 (by decide)).1,
      ((remaining_delay_formula (DelayedItem.new 7 2 TimeUnit.Seconds 0 : DelayedItem Nat)
        1500000000 5000000000).2.2.1 (by decide)).2⟩,
    by decide⟩

/-! ## C13 and C14: the ordering relation -/

/-- C13, as stated, fails: at the instant 0 an item of 5 seconds orders before an item of 1000
milliseconds built at the same instant, although in nanoseconds its remaining delay is the larger
one; the item of 1000 milliseconds, whose remaining delay is the smaller one in a common unit,
does not order before the other. -/
theorem order_ignores_units :
    DelayedItem.lt 0 (DelayedItem.new 1 5 TimeUnit.Seconds 0 : DelayedItem Nat)
      (DelayedItem.new 2 1000 TimeUnit.Milliseconds 0) = true ∧
    (DelayedItem.new 1 5 TimeUnit.Seconds 0 : DelayedItem Nat).remainingNanos 0 = 5000000000 ∧
    (DelayedItem.new 2 1000 TimeUnit.Milliseconds 0 : DelayedItem Nat).remainingNanos 0 =
      1000000000 ∧
    ¬ ((DelayedItem.new 1 5 TimeUnit.Seconds 0 : DelayedItem Nat).remainingNanos 0 <
      (DelayedItem.new 2 1000 TimeUnit.Milliseconds 0 : DelayedItem Nat).remainingNanos 0) ∧
    DelayedItem.lt 0 (DelayedItem.new 2 1000 TimeUnit.Milliseconds 0 : DelayedItem Nat)
      (DelayedItem.new 1 5 TimeUnit.Seconds 0) = false := by
  refine ⟨by decide, by decide, by decide, by decide, by decide⟩

/-- C13, amended: the ordering relation places `a` before `b` exactly when the remaining delay of
`a`, counted in the unit of `a`, is smaller than the remaining delay of `b`, counted in the unit
of `b`; for two items of the same unit this is the comparison of the two remaining delays
expressed in a common unit. -/
theorem order_compares_raw_delays (a b : DelayedItem T) (t : Int) :
    (DelayedItem.lt t a b = true ↔ a.getDelay t < b.getDelay t) ∧
    (a._timeUnit = b._timeUnit →
      (DelayedItem.lt t a b = true ↔ a.remainingNanos t < b.remainingNanos t)) := by
  have h1 : DelayedItem.lt t a b = true ↔ a.getDelay t < b.getDelay t := by
    unfold DelayedItem.lt
    exact decide_eq_true_iff
  refine ⟨h1, fun hu => ?_⟩
  rw [h1]
  unfold DelayedItem.remainingNanos
  rw [hu]
  exact (mul_lt_mul_right (nanos_pos b._timeUnit)).symm

/-- C13, amended, at a concrete input: two items in seconds built one second apart. -/
theorem order_compares_raw_delays_witness :
    (DelayedItem.new 1 5 TimeUnit.Seconds 0 : DelayedItem Nat)._timeUnit =
      (DelayedItem.new 2 3 TimeUnit.Seconds 1000000000 : DelayedItem Nat)._timeUnit ∧
    (DelayedItem.lt 2000000000 (DelayedItem.new 2 3 TimeUnit.Seconds 1000000000 : DelayedItem Nat)
        (DelayedItem.new 1 5 TimeUnit.Seconds 0) = true ↔
      (DelayedItem.new 2 3 TimeUnit.Seconds 1000000000 : DelayedItem Nat).remainingNanos
          2000000000 <
        (DelayedItem.new 1 5 TimeUnit.Seconds 0 : DelayedItem Nat).remainingNanos 2000000000) ∧
    DelayedItem.lt 2000000000 (DelayedItem.new 2 3 TimeUnit.Seconds 1000000000 : DelayedItem Nat)
      (DelayedItem.new 1 5 TimeUnit.Seconds 0) = true :=
  ⟨rfl,
    (order_compares_raw_delays (DelayedItem.new 2 3 TimeUnit.Seconds 1000000000 : DelayedItem Nat)
      (DelayedItem.new 1 5 TimeUnit.Seconds 0) 2000000000).2 rfl,
    by decide⟩

/-- C14, as stated, fails: the queue holds an item of 5 seconds and an item of 1000 milliseconds,
both enqueued at the instant 0; at the instant 0 the first orders before the second, 999 ms later
it no longer does and the second orders before the first. -/
theorem order_changes_with_time :
    (run secondsThenMillis).queue =
      [DelayedItem.new 1 5 TimeUnit.Seconds 0, DelayedItem.new 2 1000 TimeUnit.Milliseconds 0] ∧
    (0 : Int) ≤ 999000000 ∧
    DelayedItem.lt 0 (DelayedItem.new 1 5 TimeUnit.Seconds 0 : DelayedItem Nat)
      (DelayedItem.new 2 1000 TimeUnit.Milliseconds 0) = true ∧
    DelayedItem.lt 999000000 (DelayedItem.new 1 5 TimeUnit.Seconds 0 : DelayedItem Nat)
      (DelayedItem.new 2 1000 TimeUnit.Milliseconds 0) = false ∧
    DelayedItem.lt 999000000 (DelayedItem.new 2 1000 TimeUnit.Milliseconds 0 : DelayedItem Nat)
      (DelayedItem.new 1 5 TimeUnit.Seconds 0) = true := by
  refine ⟨by decide, by decide, by decide, by decide, by decide⟩

/-- C14, amended: for two items of the same time unit the relative order does not change with
the passage of time: `a` orders before `b` at one instant if and only if it does at any other;
the order is that of the enqueue timestamp plus the delay amount. -/
theorem order_static_within_one_unit (a b : DelayedItem T) (t1 t2 : Int)
    (hu : a._timeUnit = b._timeUnit) :
    (DelayedItem.lt t1 a b = true ↔ DelayedItem.lt t2 a b = true) ∧
    (DelayedItem.lt t1 a b = true ↔ a.due < b.due) := by
  have h : ∀ t, DelayedItem.lt t a b = true ↔ a.due < b.due := by
    intro t
    unfold DelayedItem.lt
    rw [decide_eq_true_iff, getDelay_eq_due_sub, getDelay_eq_due_sub, hu]
    omega
  exact ⟨(h t1).trans (h t2).symm, h t1⟩

/-- C14, amended, at a concrete input: two items in milliseconds read at the instant of the
offer and two seconds later. -/
theorem order_static_within_one_unit_witness :
    (DelayedItem.new 2 2000 TimeUnit.Milliseconds 0 : DelayedItem Nat)._timeUnit =
      (DelayedItem.new 1 6000 TimeUnit.Milliseconds 0 : DelayedItem Nat)._timeUnit ∧
    ((DelayedItem.lt 0 (DelayedItem.new 2 2000 TimeUnit.Milliseconds 0 : DelayedItem Nat)
          (DelayedItem.new 1 6000 TimeUnit.Milliseconds 0) = true ↔
        DelayedItem.lt 2000000000
          (DelayedItem.new 2 2000 TimeUnit.Milliseconds 0 : DelayedItem Nat)
          (DelayedItem.new 1 6000 TimeUnit.Milliseconds 0) = true) ∧
      (DelayedItem.lt 0 (DelayedItem.new 2 2000 TimeUnit.Milliseconds 0 : DelayedItem Nat)
          (DelayedItem.new 1 6000 TimeUnit.Milliseconds 0) = true ↔
        (DelayedItem.new 2 2000 TimeUnit.Milliseconds 0 : DelayedItem Nat).due <
          (DelayedItem.new 1 6000 TimeUnit.Milliseconds 0 : DelayedItem Nat).due)) ∧
    DelayedItem.lt 0 (DelayedItem.new 2 2000 TimeUnit.Milliseconds 0 : DelayedItem Nat)
      (DelayedItem.new 1 6000 TimeUnit.Milliseconds 0) = true :=
  ⟨rfl,
    order_static_within_one_unit (DelayedItem.new 2 2000 TimeUnit.Milliseconds 0 : DelayedItem Nat)
      (DelayedItem.new 1 6000 TimeUnit.Milliseconds 0) 0 2000000000 rfl,
    by decide⟩

/-! ## C15 and C18: what a waiting `take` does when it wakes -/

/-- C15, the code at the failing input: the queue holds one item of 5000 ms; a `take` entered at
the instant 0 issues a timed wait; `remove(1)` one second later empties the collection; on waking
the waiter evaluates `front()` on the empty collection instead of going back to waiting.  The
same happens when another `take` has popped the only item in the meantime, whereas a call that
finds the collection empty on entry does wait. -/
theorem waiter_reads_front_of_emptied_collection :
    offer 0 ([] : List (DelayedItem Nat)) 1 5000 TimeUnit.Milliseconds =
      [DelayedItem.new 1 5000 TimeUnit.Milliseconds 0] ∧
    remove 1000000000 (offer 0 ([] : List (DelayedItem Nat)) 1 5000 TimeUnit.Milliseconds) 1 =
      [] ∧
    takeCommon 0 (offer 0 ([] : List (DelayedItem Nat)) 1 5000 TimeUnit.Milliseconds)
        [{ instant := 1000000000,
           queue := remove 1000000000
             (offer 0 ([] : List (DelayedItem Nat)) 1 5000 TimeUnit.Milliseconds) 1 }] =
      .frontOfEmpty [(5000, TimeUnit.Milliseconds)] ∧
    takeCommon 5000000000 (offer 0 ([] : List (DelayedItem Nat)) 1 5000 TimeUnit.Milliseconds)
        [] =
      .returned (DelayedItem.new 1 5000 TimeUnit.Milliseconds 0) [] 5000000000 [] ∧
    takeCommon 0 (offer 0 ([] : List (DelayedItem Nat)) 1 5000 TimeUnit.Milliseconds)
        [{ instant := 5000000000, queue := [] }] =
      .frontOfEmpty [(5000, TimeUnit.Milliseconds)] ∧
    takeCommon 0 ([] : List (DelayedItem Nat)) [{ instant := 1000000000, queue := [] }] =
      .suspended [] := by
  refine ⟨rfl, rfl, rfl, rfl, rfl, rfl⟩

/-- C18: when the head of a non-empty collection has a remaining delay `r > 0` at the instant at
which `take` examines it, the call issues one timed wait whose argument is `r` in the unit of
that head; on waking it goes on with the remaining delay and unit of the item then at the head,
read at the instant of the wake: if that item is due the call returns it at that wake, and
otherwise the next timed wait is issued with the values just read. -/
theorem take_waits_head_delay_then_rereads (x : DelayedItem T) (xs : List (DelayedItem T))
    (now : Int) (w : Wake T) (ws : List (Wake T)) (y : DelayedItem T)
    (ys : List (DelayedItem T)) (hr : 0 < x.getDelay now) (hw : w.queue = y :: ys) :
    takeCommon now (x :: xs) [] = .suspended [(x.getDelay now, x.getTimeUnit)] ∧
    takeCommon now (x :: xs) (w :: ws) =
      delayLoop (y.getDelay w.instant) y.getTimeUnit w.instant (y :: ys)
        [(x.getDelay now, x.getTimeUnit)] ws ∧
    (y.getDelay w.instant ≤ 0 →
      takeCommon now (x :: xs) (w :: ws) =
        .returned y ys w.instant [(x.getDelay now, x.getTimeUnit)]) ∧
    (0 < y.getDelay w.instant →
      takeCommon now (x :: xs) [w] =
        .suspended [(x.getDelay now, x.getTimeUnit), (y.getDelay w.instant, y.getTimeUnit)]) := by
  have h1 : takeCommon now (x :: xs) (w :: ws) =
      delayLoop (y.getDelay w.instant) y.getTimeUnit w.instant (y :: ys)
        [(x.getDelay now, x.getTimeUnit)] ws := by
    rw [takeCommon_cons]
    simp [delayLoop, hr, hw]
  refine ⟨?_, h1, fun hy => ?_, fun hy => ?_⟩
  · rw [takeCommon_cons]
    simp [delayLoop, hr]
  · rw [h1, delayLoop_of_due _ _ _ _ _ _ hy]
    rfl
  · rw [takeCommon_cons]
    simp [delayLoop, hr, hw, hy]

/-- C18 at a concrete input: a waiter blocked on an item due in 5000 ms wakes after half a second
because an item of 1000 ms has been offered, waits 1000 ms on the new head and returns it one
second later, long before the 5000 ms are over. -/
theorem take_waits_head_delay_then_rereads_witness :
    (0 : Int) < (DelayedItem.new 1 5000 TimeUnit.Milliseconds 0 : DelayedItem Nat).getDelay 0 ∧
    offer 500000000 [DelayedItem.new 1 5000 TimeUnit.Milliseconds 0] 2 1000
        TimeUnit.Milliseconds =
      DelayedItem.new 2 1000 TimeUnit.Milliseconds 500000000 ::
        [DelayedItem.new 1 5000 TimeUnit.Milliseconds 0] ∧
    (takeCommon 0 [(DelayedItem.new 1 5000 TimeUnit.Milliseconds 0 : DelayedItem Nat)] [] =
        .suspended [(5000, TimeUnit.Milliseconds)] ∧
      takeCommon 0 [(DelayedItem.new 1 5000 TimeUnit.Milliseconds 0 : DelayedItem Nat)]
          [{ instant := 500000000,
             queue := offer 500000000 [DelayedItem.new 1 5000 TimeUnit.Milliseconds 0] 2 1000
               TimeUnit.Milliseconds }] =
        .suspended [(5000, TimeUnit.Milliseconds), (1000, TimeUnit.Milliseconds)]) ∧
    takeCommon 0 [(DelayedItem.new 1 5000 TimeUnit.Milliseconds 0 : DelayedItem Nat)]
        [{ instant := 500000000,
           queue := offer 500000000 [DelayedItem.new 1 5000 TimeUnit.Milliseconds 0] 2 1000
             TimeUnit.Milliseconds },
         { instant := 1500000000,
           queue := offer 500000000 [DelayedItem.new 1 5000 TimeUnit.Milliseconds 0] 2 1000
             TimeUnit.Milliseconds }] =
      .returned (DelayedItem.new 2 1000 TimeUnit.Milliseconds 500000000)
        [DelayedItem.new 1 5000 TimeUnit.Milliseconds 0] 1500000000
        [(5000, TimeUnit.Milliseconds), (1000, TimeUnit.Milliseconds)] :=
  ⟨by decide, by decide,
    ⟨(take_waits_head_delay_then_rereads
        (DelayedItem.new 1 5000 TimeUnit.Milliseconds 0 : DelayedItem Nat) [] 0
        { instant := 500000000,
          queue := offer 500000000 [DelayedItem.new 1 5000 TimeUnit.Milliseconds 0] 2 1000
            TimeUnit.Milliseconds } []
        (DelayedItem.new 2 1000 TimeUnit.Milliseconds 500000000)
        [DelayedItem.new 1 5000 TimeUnit.Milliseconds 0] (by decide) (by decide)).1,
      (take_waits_head_delay_then_rereads
        (DelayedItem.new 1 5000 TimeUnit.Milliseconds 0 : DelayedItem Nat) [] 0
        { instant := 500000000,
          queue := offer 500000000 [DelayedItem.new 1 5000 TimeUnit.Milliseconds 0] 2 1000
            TimeUnit.Milliseconds } []
        (DelayedItem.new 2 1000 TimeUnit.Milliseconds 500000000)
        [DelayedItem.new 1 5000 TimeUnit.Milliseconds 0] (by decide) (by decide)).2.2.2
        (by decide)⟩,
    rfl⟩

/-! ## C19: histories in one time unit keep the collection sorted -/

/-- C19: when every `offer` of a history names the same time unit, the collection it reaches is,
at every instant `t`, in ascending order of the remaining delay read at `t`, and it is in
ascending order of the enqueue timestamp plus the delay amount; a `take` that returns pops an
item whose remaining delay, at the instant of the return, is the least of all the items that the
collection held. -/
theorem same_unit_collection_stays_sorted [DecidableEq T] (u : TimeUnit)
    (h : List (Int × Call T)) (hh : sameUnit u h = true) (t : Int) :
    SortedAt t (run h).queue ∧ SortedByDue (run h).queue ∧
    (∀ (now : Int) (wakes : List Int) (item : DelayedItem T) (rest : List (DelayedItem T))
      (t1 : Int) (tw : List (Int × TimeUnit)),
      takeCommon now (run h).queue (undisturbed (run h).queue wakes) =
        .returned item rest t1 tw →
      ∀ y ∈ (run h).queue, item.getDelay t1 ≤ y.getDelay t1) := by
  obtain ⟨hu, hs⟩ := run_sameUnit h hh
  refine ⟨sortedAt_of_sortedByDue t hu hs, hs, ?_⟩
  intro now wakes item rest t1 tw ht y hy
  have hq := (takeCommon_undisturbed_returned now _ wakes item rest t1 tw ht).1
  have hsorted := sortedAt_of_sortedByDue t1 hu hs
  rw [hq] at hsorted hy
  rcases List.mem_cons.mp hy with hyi | hyr
  · rw [hyi]
  · exact List.rel_of_pairwise_cons hsorted hyr

/-- C19 on sample 1 of `main.cpp` followed by `remove(3)`, a fourth offer and a `take`: item 2
has been returned and the collection holds item 1 before item 4. -/
theorem same_unit_collection_stays_sorted_witness :
    sameUnit TimeUnit.Milliseconds sampleOneRemoveTake = true ∧
    Chronological sampleOneRemoveTake ∧
    (run sampleOneRemoveTake).queue =
      [DelayedItem.new 1 6000 TimeUnit.Milliseconds 0,
       DelayedItem.new 4 7000 TimeUnit.Milliseconds 1500000000] ∧
    (run sampleOneRemoveTake).returned = [DelayedItem.new 2 2000 TimeUnit.Milliseconds 0] ∧
    (SortedAt 3000000000 (run sampleOneRemoveTake).queue ∧
      SortedByDue (run sampleOneRemoveTake).queue ∧
      (∀ (now : Int) (wakes : List Int) (item : DelayedItem Nat) (rest : List (DelayedItem Nat))
        (t1 : Int) (tw : List (Int × TimeUnit)),
        takeCommon now (run sampleOneRemoveTake).queue
            (undisturbed (run sampleOneRemoveTake).queue wakes) =
          .returned item rest t1 tw →
        ∀ y ∈ (run sampleOneRemoveTake).queue, item.getDelay t1 ≤ y.getDelay t1)) :=
  ⟨by decide, by decide, by decide, by decide,
    same_unit_collection_stays_sorted TimeUnit.Milliseconds sampleOneRemoveTake (by decide)
      3000000000⟩

end delay
